import Mathlib

/-!
Verification of the Anki voice-assistant core.

Shallow embedding of the spoken-utterance capture pipeline, the speculative
audio cache, and the session sequencer of the repository, together with
theorems checking the natural-language specification against the code.

The embedding follows the source files:
* server `POST /api/tts` handler (text truncation),
* `client/src/App.tsx` (`cacheSet`, `prefetchOneCard`, `warmPrefetch`,
  `ttsSpeakCardFront`, `startListeningForAnswer`, `grade`/`handleStart`
  sequence counter),
* `client/src/stt.ts` (`SpeechOnce`: `_rms`, `recordOneUtterance`, `stop`).
-/

/-! ## Server: POST /api/tts text truncation

Embeds the `safeText` computation of the `/api/tts` handler.  JavaScript
strings are modelled as `List Char`; `text.length`, `text.slice(0, n)` and
string concatenation become `List.length`, `List.take` and `++`. -/

/-- The `MAX` constant of the `/api/tts` handler (maximal text length
forwarded to the synthesis provider). -/
def MAX : Nat := 4800

/-- `const safeText = text.length > MAX ? (text.slice(0, MAX - 1) + "…") : text;` -/
def safeText (text : List Char) : List Char :=
  if MAX < text.length then text.take (MAX - 1) ++ ['…'] else text

/-- The input-validation plus truncation steps of the `/api/tts` handler:
`if (!text?.trim()) return 400 "text is required"`, otherwise the text
forwarded to the provider is `safeText text`. -/
def ttsHandlerText (text : List Char) : Except String (List Char) :=
  if text.all (fun c => c.isWhitespace) then .error "text is required"
  else .ok (safeText text)

/-! ## Recorder: `SpeechOnce._rms`

`_rms` computes the root mean square of the byte buffer after normalising
each sample `b : 0..255` to `(b - 128)/128`.  Samples are exact rationals;
the final square root lives in `ℝ`. -/

/-- One normalised sample: `(buf[i] - 128) / 128`. -/
def normSample (b : Nat) : ℚ := ((b : ℚ) - 128) / 128

/-- The loop of `_rms`: `sum += v * v` over the whole buffer. -/
def sumSquares (buf : List Nat) : ℚ :=
  (buf.map (fun b => normSample b * normSample b)).sum

/-- `sum / buf.length` before the square root. -/
def meanSquare (buf : List Nat) : ℚ := sumSquares buf / buf.length

/-- `SpeechOnce._rms`: `Math.sqrt(sum / buf.length)`. -/
noncomputable def _rms (buf : List Nat) : ℝ := Real.sqrt (meanSquare buf)

/-! ## Prefetch cache: `cacheSet` and the `MAX_CACHE` bound

The client keeps `ttsCache = Map<number, string>` from card id to blob URL
plus the set of object URLs it has revoked.  A JavaScript `Map` iterates in
insertion order, so it is modelled as an insertion-ordered association
list; `keys().next().value` is the head of that list. -/

/-- The `MAX_CACHE` constant of `App.tsx`. -/
def MAX_CACHE : Nat := 12

/-- The client audio cache: insertion-ordered entries `(cardId, blobUrl)`
together with the list of URLs passed to `URL.revokeObjectURL` so far. -/
structure Cache where
  entries : List (Nat × String)
  revoked : List String
deriving DecidableEq

/-- The empty cache (fresh `Map`, nothing revoked). -/
def Cache.empty : Cache := ⟨[], []⟩

/-- Keys currently resident, in insertion order. -/
def Cache.keys (c : Cache) : List Nat := c.entries.map Prod.fst

/-- `url.startsWith("blob:")` as used by `cacheSet` and the unmount
cleanup: the URL's first five characters are `blob:` (computed on the
character list so that concrete caches evaluate). -/
def isBlobUrl (s : String) : Bool := decide (s.data.take 5 = "blob:".data)

/-- The overflow branch of `cacheSet`: `oldest = keys().next().value` is
the head of the insertion-ordered map; its URL is revoked when it is a
`blob:` URL (`URL.revokeObjectURL`), and the entry is deleted. -/
def evictOldest (c : Cache) : Cache :=
  match c.entries with
  | [] => c
  | old :: rest =>
      ⟨rest, if isBlobUrl old.2 then c.revoked ++ [old.2] else c.revoked⟩

/-- `cacheSet(cardId, blobUrl)` from `App.tsx`: insert only if absent; on
overflow past `MAX_CACHE` delete the oldest-inserted entry, revoking its
object URL when it is a `blob:` URL. -/
def cacheSet (c : Cache) (cardId : Nat) (blobUrl : String) : Cache :=
  if cardId ∈ c.keys then c
  else
    let c1 : Cache := ⟨c.entries ++ [(cardId, blobUrl)], c.revoked⟩
    if MAX_CACHE < c1.entries.length then evictOldest c1 else c1

/-- Folding `cacheSet` over a list of insertions, starting from the empty
cache (the "insert ids in order" scenario of the spec). -/
def insertAll (l : List (Nat × String)) : Cache :=
  l.foldl (fun c p => cacheSet c p.1 p.2) Cache.empty

/-- The cache invariant claimed by the spec: at most one entry per itemId
and at most `MAX_CACHE` entries. -/
def CacheInv (c : Cache) : Prop :=
  c.keys.Nodup ∧ c.entries.length ≤ MAX_CACHE

/-! ## Prefetch worker pool: `prefetchOneCard` / `warmPrefetch`

Sequential semantics of one worker of the `warmPrefetch` pool.  A worker
repeatedly shifts the next id off the shared queue and awaits
`prefetchOneCard(id)`; because `prefetchOneCard` restores the in-flight
set before returning, the per-candidate failure-handling behaviour of the
pool is that of the fold below.  The combined `cardsInfo` +
`ttsFetchToBlobUrl` round trip for an id is abstracted as an oracle
`fetch : Nat → FetchOutcome`: it can yield a blob URL, yield `null`
(`API.tts` returned no URL), or throw. -/

/-- Outcome of the fetch-and-synthesize round trip for one card id. -/
inductive FetchOutcome where
  | ok (blobUrl : String)
  | nullUrl
  | err (e : String)
deriving DecidableEq

/-- A fetch outcome that creates no cache entry (`null` URL or a thrown
error). -/
def FetchOutcome.failed : FetchOutcome → Prop
  | .ok _ => False
  | .nullUrl => True
  | .err _ => True

/-- Client prefetch state: the audio cache, the `inflight` set (JS
`Set<number>`, modelled as a duplicate-free list), and — as an observation
for the theorems — the ids for which a fetch was actually started, in
order. -/
structure PrefetchState where
  cache : Cache
  inflight : List Nat
  attempts : List Nat
deriving DecidableEq

/-- The body of `prefetchOneCard` after admission: await the fetch, then
`cacheSet` on a non-null URL.  A thrown error propagates (as `Except`) to
the `catch` of `prefetchOneCard`. -/
def prefetchBody (fetch : Nat → FetchOutcome) (s : PrefetchState) (id : Nat) :
    Except String PrefetchState :=
  match fetch id with
  | .err e => .error e
  | .nullUrl => .ok s
  | .ok url => .ok { s with cache := cacheSet s.cache id url }

/-- `prefetchOneCard(cardId)`: skip if cached or in flight; otherwise add
to `inflight`, run the body under `try`/`catch` (the `catch` only logs),
and in `finally` delete the id from `inflight`.  The returned `Except` is
the promise of `prefetchOneCard`: it never rejects. -/
def prefetchOneCard (fetch : Nat → FetchOutcome) (s : PrefetchState) (id : Nat) :
    Except String PrefetchState :=
  if id ∈ s.cache.keys ∨ id ∈ s.inflight then .ok s
  else
    let s1 : PrefetchState :=
      { s with inflight := id :: s.inflight, attempts := s.attempts ++ [id] }
    let s2 : PrefetchState :=
      match prefetchBody fetch s1 id with
      | .error _ => s1
      | .ok t => t
    .ok { s2 with inflight := s2.inflight.erase id }

/-- The worklist of `warmPrefetch(deckName, excludeCardId, n)`: the
candidate ids with `excludeCardId` filtered out, truncated to the first
`n`. -/
def warmList (candidates : List Nat) (excludeCardId : Option Nat) (n : Nat) : List Nat :=
  (candidates.filter (fun id => ¬ excludeCardId = some id)).take n

/-- `warmPrefetch`: every id of the worklist is processed by exactly one
worker via `prefetchOneCard`; the pool's queue processing is the monadic
fold below. -/
def warmPrefetch (fetch : Nat → FetchOutcome) (s : PrefetchState)
    (candidates : List Nat) (excludeCardId : Option Nat) (n : Nat) :
    Except String PrefetchState :=
  (warmList candidates excludeCardId n).foldlM (prefetchOneCard fetch) s

/-! ## Concurrent admission: prefetch versus on-demand synthesis

Interleaving semantics for claim C2.  The single JavaScript thread runs
the atomic blocks between `await`s; the environment chooses their order.
Four atomic blocks touch the cache/in-flight bookkeeping:

* `pStart id` — admission block of `prefetchOneCard`: check cache and
  `inflight`; if neither covers the id, add it to `inflight` and start
  its fetch (the fetch becomes outstanding);
* `pFinish id ok url` — completion block of `prefetchOneCard`:
  `cacheSet` on success, then `finally { inflight.delete(id) }`;
* `oStart id` — the uncached branch of `ttsSpeakCardFront`: it consults
  only the cache (`ttsCache.current.get(snap.cardId)`) and starts an
  on-demand `ttsFetchToBlobUrl` without touching `inflight`;
* `oFinish id ok url` — completion of the on-demand fetch: `cacheSet`
  plus `setTtsUrl` on success.

`pFetching`/`oFetching` record the outstanding synthesis requests of each
path (with multiplicity). -/

/-- One step of the interleaved prefetch / on-demand execution. -/
inductive WarmEvent where
  | pStart (id : Nat)
  | pFinish (id : Nat) (ok : Bool) (url : String)
  | oStart (id : Nat)
  | oFinish (id : Nat) (ok : Bool) (url : String)
deriving DecidableEq

/-- Shared client state plus the outstanding requests of both paths. -/
structure WarmState where
  cache : Cache
  inflight : List Nat
  pFetching : List Nat
  oFetching : List Nat
deriving DecidableEq

/-- Initial state: empty cache, nothing in flight. -/
def warmInit : WarmState := ⟨Cache.empty, [], [], []⟩

/-- Effect of one atomic block on the shared state.  A `pFinish`/`oFinish`
event for an id with no outstanding request of that kind is a no-op (the
environment may only complete work that was started). -/
def warmStep (s : WarmState) : WarmEvent → WarmState
  | .pStart id =>
      if id ∈ s.cache.keys ∨ id ∈ s.inflight then s
      else { s with inflight := id :: s.inflight, pFetching := id :: s.pFetching }
  | .pFinish id ok url =>
      if id ∈ s.pFetching then
        { s with cache := if ok then cacheSet s.cache id url else s.cache,
                 inflight := s.inflight.erase id,
                 pFetching := s.pFetching.erase id }
      else s
  | .oStart id =>
      if id ∈ s.cache.keys then s
      else { s with oFetching := id :: s.oFetching }
  | .oFinish id ok url =>
      if id ∈ s.oFetching then
        { s with cache := if ok then cacheSet s.cache id url else s.cache,
                 oFetching := s.oFetching.erase id }
      else s

/-- Run an interleaving from the initial state. -/
def warmRun (evs : List WarmEvent) : WarmState := evs.foldl warmStep warmInit

/-- Number of outstanding synthesis requests for `id`, across both the
speculative and the on-demand path. -/
def WarmState.outstanding (s : WarmState) (id : Nat) : Nat :=
  s.pFetching.count id + s.oFetching.count id

/-! ## Recorder: the `recordOneUtterance` tick machine

`recordOneUtterance` polls the analyser once per animation frame.  The
embedding drives the loop with a list of `Frame`s: each frame carries the
energy the analyser reports (`_rms` of the time-domain data), the elapsed
time `performance.now() - startedAt` in milliseconds, the microphone bytes
that arrived since the previous tick, whether a 250 ms `MediaRecorder`
timeslice boundary fires at this tick, and whether `stop()` was invoked
externally since the previous tick.

The `MediaRecorder` collaborator is not part of the repository; it is
modelled from the spec: while started it buffers incoming audio
(`pending`), a timeslice boundary or an explicit `requestData()` delivers
the buffer as a chunk via `ondataavailable` (the handler drops empty
chunks), and a stop that is not preceded by `requestData()` leaves the
pending buffer undelivered. -/

/-- The resolved configuration of `recordOneUtterance` (after the
destructuring defaults have been applied). -/
structure RecCfg where
  rmsThreshold : ℚ
  startFrames : Nat
  endFrames : Nat
  maxUtteranceMs : ℚ
deriving DecidableEq

/-- The option object passed to the `SpeechOnce` constructor; `none`
fields take the destructuring defaults of `recordOneUtterance`. -/
structure SpeechOnceOpts where
  rmsThreshold : Option ℚ := none
  startFrames : Option Nat := none
  endFrames : Option Nat := none
  frameMs : Option ℚ := none
  maxUtteranceMs : Option ℚ := none

/-- The destructuring defaults of `recordOneUtterance`:
`rmsThreshold = 0.02`, `startFrames = 4`, `frameMs = 50`,
`endFrames = max(1, round(3000 / max(1, frameMs)))`,
`maxUtteranceMs = 60000`. -/
def SpeechOnceOpts.resolve (o : SpeechOnceOpts) : RecCfg :=
  let frameMs := o.frameMs.getD 50
  { rmsThreshold := o.rmsThreshold.getD (2/100)
    startFrames := o.startFrames.getD 4
    endFrames := o.endFrames.getD (max 1 (round (3000 / max 1 frameMs)).toNat)
    maxUtteranceMs := o.maxUtteranceMs.getD 60000 }

/-- One polling tick's worth of input from the environment. -/
structure Frame where
  energy : ℚ
  now : ℚ
  bytes : Nat
  boundary : Bool
  extStop : Bool
deriving DecidableEq

/-- The mutable state of one `recordOneUtterance` call: the `_running`
flag, the `speakingFrames`/`silenceFrames` debounce counters, the
`recording` flag (true once `_rec.start(250)` ran), the delivered chunk
sizes (`_chunks`), and the recorder's undelivered buffer. -/
structure STTState where
  running : Bool
  speakingFrames : Nat
  silenceFrames : Nat
  recording : Bool
  chunks : List Nat
  pending : Nat
deriving DecidableEq

/-- State at the top of `recordOneUtterance` (after `start()`):
`speakingFrames = 0`, `silenceFrames = 0`, `recording = false`,
`this._chunks = []`. -/
def initSTT : STTState := ⟨true, 0, 0, false, [], 0⟩

/-- Audio arriving between ticks: while the underlying recorder is
started, bytes accumulate in its buffer and a timeslice boundary delivers
the buffer as a chunk (`ondataavailable` drops empty data). -/
def deliverAudio (s : STTState) (f : Frame) : STTState :=
  if s.recording then
    let s1 : STTState := { s with pending := s.pending + f.bytes }
    if f.boundary ∧ 0 < s1.pending then
      { s1 with chunks := s1.chunks ++ [s1.pending], pending := 0 }
    else s1
  else s

/-- `this._rec.requestData()` (modelled from the spec): deliver the
pending buffer as a final chunk.  On a recorder that was never started the
call throws and is swallowed by the surrounding `try`/`catch`, so nothing
is delivered. -/
def requestDataFlush (s : STTState) : STTState :=
  if s.recording ∧ 0 < s.pending then
    { s with chunks := s.chunks ++ [s.pending], pending := 0 }
  else s

/-- `const blob = this._chunks.length ? new Blob(this._chunks) : null`. -/
def finalizeBlob (s : STTState) : Option (List Nat) :=
  if s.chunks.isEmpty then none else some s.chunks

/-- Result of one `tick`: keep polling, or settle the promise with a blob
(`none` = `null`). -/
inductive TickResult where
  | cont (s : STTState)
  | resolvedNow (b : Option (List Nat)) (s : STTState)
deriving DecidableEq

/-- One execution of the `tick` closure of `recordOneUtterance`:
the `!this._running` guard, then the VAD branch (idle: debounce
`speakingFrames` and possibly `this._rec.start(250)`; recording: debounce
`silenceFrames` and on `endFrames` of silence `requestData(); stop();`
finalize), then the shared `maxUtteranceMs` check with the same
`requestData(); stop();` finalize sequence. -/
def tick (cfg : RecCfg) (s0 : STTState) (f : Frame) : TickResult :=
  let s := if f.extStop then { s0 with running := false } else s0
  if s.running = false then .resolvedNow none s
  else
    let s := deliverAudio s f
    if s.recording = false then
      let speaking := if cfg.rmsThreshold < f.energy then s.speakingFrames + 1 else 0
      let s :=
        if cfg.startFrames ≤ speaking then
          { s with speakingFrames := speaking, recording := true, silenceFrames := 0 }
        else { s with speakingFrames := speaking }
      if cfg.maxUtteranceMs < f.now then
        let sF := requestDataFlush s
        .resolvedNow (finalizeBlob sF) sF
      else .cont s
    else
      let silence := if f.energy ≤ cfg.rmsThreshold then s.silenceFrames + 1 else 0
      let s := { s with silenceFrames := silence }
      if cfg.endFrames ≤ silence then
        let sF := requestDataFlush s
        .resolvedNow (finalizeBlob sF) sF
      else if cfg.maxUtteranceMs < f.now then
        let sF := requestDataFlush s
        .resolvedNow (finalizeBlob sF) sF
      else .cont s

/-- Outcome of driving the tick loop over a list of frames: either the
promise is still pending (with the machine state reached), or it resolved
with blob `b` in machine state `s` at the tick whose elapsed time was
`t`. -/
inductive RunOutcome where
  | pending (s : STTState)
  | resolved (b : Option (List Nat)) (s : STTState) (t : ℚ)
deriving DecidableEq

/-- Drive the tick loop. -/
def runTicks (cfg : RecCfg) (s : STTState) : List Frame → RunOutcome
  | [] => .pending s
  | f :: fs =>
      match tick cfg s f with
      | .cont s' => runTicks cfg s' fs
      | .resolvedNow b s' => .resolved b s' f.now

/-- The fields of a `SpeechOnce` instance that gate `recordOneUtterance`:
`_running`, `_analyser`, `_rec` (the latter two tracked as "non-null"). -/
structure SpeechOnce where
  running : Bool
  hasAnalyser : Bool
  hasRec : Bool
deriving DecidableEq

/-- A freshly constructed `SpeechOnce` (before `start()`): nothing
acquired. -/
def SpeechOnce.mk0 : SpeechOnce := ⟨false, false, false⟩

/-- `start()`: acquires the stream, analyser and recorder and sets
`_running = true`. -/
def SpeechOnce.start (_sp : SpeechOnce) : SpeechOnce := ⟨true, true, true⟩

/-- `stop()`: clears `_running` and nulls the stream, analyser and
recorder. -/
def SpeechOnce.stop (_sp : SpeechOnce) : SpeechOnce := ⟨false, false, false⟩

/-- `recordOneUtterance()`: the immediate
`if (!this._running || !this._analyser || !this._rec) return null` guard,
then the polling loop from the initial capture state.  An immediate `null`
is reported as resolution at elapsed time `0`. -/
def recordOneUtterance (sp : SpeechOnce) (cfg : RecCfg) (frames : List Frame) :
    RunOutcome :=
  if sp.running = false ∨ sp.hasAnalyser = false ∨ sp.hasRec = false then
    .resolved none initSTT 0
  else runTicks cfg initSTT frames

/-! ## Session sequencer: `startListeningForAnswer` versus `advance`

`App.tsx` keeps `currentSeqRef`, incremented once per item transition (in
`handleStart` and in `grade`).  The record-answer flow
`startListeningForAnswer(languageHint, snap, seqAtStart)` is a chain of
atomic blocks separated by `await`s:

* `checkEntry` — the guard `if (seqAtStart !== currentSeqRef.current) return`
  at the top of the function;
* `capture` — playback wait, `stt.start()`, `recordOneUtterance`,
  `stt.stop()`, `blobToDataURL` and the `data:audio` check; it appends no
  chat message and ends the flow early when no speech was captured;
* `checkBeforeSend` — the second guard
  `if (seqAtStart !== currentSeqRef.current) return` before the POST;
* `sendReview` — issuing `await API.reviewChain(...)` (the flow suspends);
* `applyResult` — the code after the `await`: append the transcript as a
  user message and, when present, the reply as an assistant message (or
  the error text when `out.ok` is false); a rejection of `reviewChain`
  lands in the `catch`, which appends nothing.

The environment interleaves `adv` actions — `currentSeqRef.current += 1`
as performed by `handleStart` and `grade` — with the flow's own steps.
The captured blob outcome and the review response are fixed up front as
part of the scenario. -/

/-- Chat message roles. -/
inductive Role where
  | user
  | assistant
deriving DecidableEq

/-- A chat message (`Msg` in `App.tsx`, text form). -/
structure Msg where
  role : Role
  text : String
deriving DecidableEq

/-- The `/api/review-chain` response as consumed by the client. -/
structure ReviewOut where
  ok : Bool
  transcript : String
  reply : Option String
  error : Option String
deriving DecidableEq

/-- The messages appended by the code after `await API.reviewChain`:
on `ok`, the transcript (or `"(no speech)"` when falsy) as a user message
followed by the reply as an assistant message when truthy; otherwise the
error text (or `"(review failed)"`). -/
def applyMessages (out : ReviewOut) : List Msg :=
  if out.ok then
    ⟨Role.user, if out.transcript = "" then "(no speech)" else out.transcript⟩ ::
      (match out.reply with
       | some r => if r = "" then [] else [⟨Role.assistant, r⟩]
       | none => [])
  else
    [⟨Role.assistant,
      match out.error with
      | some e => if e = "" then "(review failed)" else e
      | none => "(review failed)"⟩]

/-- Program counter of the record-answer flow. -/
inductive FlowPhase where
  | checkEntry
  | capture
  | checkBeforeSend
  | sendReview
  | applyResult
  | done
deriving DecidableEq

/-- The client state relevant to the sequencing claim: the live counter,
the value the flow captured at its start, the chat transcript, the flow's
program counter, and the scenario data (was a valid `data:audio` blob
captured; the review response, `none` meaning `reviewChain` rejected). -/
structure FlowState where
  counter : Nat
  seqAtStart : Nat
  messages : List Msg
  phase : FlowPhase
  blobOk : Bool
  reviewOut : Option ReviewOut
deriving DecidableEq

/-- An interleaving action: either the environment advances the sequence
counter (`handleStart`/`grade` performing `currentSeqRef.current += 1`),
or the flow runs its next atomic block. -/
inductive FlowAct where
  | adv
  | step
deriving DecidableEq

/-- Effect of one action.  `step` at `done` is a no-op. -/
def flowStep (s : FlowState) : FlowAct → FlowState
  | .adv => { s with counter := s.counter + 1 }
  | .step =>
      match s.phase with
      | .checkEntry =>
          if s.seqAtStart = s.counter then { s with phase := .capture }
          else { s with phase := .done }
      | .capture =>
          if s.blobOk then { s with phase := .checkBeforeSend }
          else { s with phase := .done }
      | .checkBeforeSend =>
          if s.seqAtStart = s.counter then { s with phase := .sendReview }
          else { s with phase := .done }
      | .sendReview => { s with phase := .applyResult }
      | .applyResult =>
          match s.reviewOut with
          | none => { s with phase := .done }
          | some out => { s with phase := .done, messages := s.messages ++ applyMessages out }
      | .done => s

/-- Run a sequence of interleaved actions. -/
def flowRun (s : FlowState) (acts : List FlowAct) : FlowState :=
  acts.foldl flowStep s

/-! ## Run-length bookkeeping for the energy sequences

The debounce counters of the tick machine count the trailing run of
above-threshold (respectively at-or-below-threshold) energies.  `runOK`
replays that counter over an energy list and checks it stays below a
bound; `trailRun` is the counter's value after a list. -/

/-- Replay a debounce counter (reset on `¬ p`, increment on `p`) from
start value `k` over `l` and check it stays strictly below `bound`. -/
def runOK (p : ℚ → Bool) (bound : Nat) : Nat → List ℚ → Bool
  | _, [] => true
  | k, e :: es =>
      if p e then decide (k + 1 < bound) && runOK p bound (k + 1) es
      else runOK p bound 0 es

/-- Length of the trailing run of elements satisfying `p` (the debounce
counter's value after processing `l` from `0`). -/
def trailRun (p : ℚ → Bool) (l : List ℚ) : Nat :=
  l.foldl (fun k e => if p e then k + 1 else 0) 0

/-- The concrete spec scenario for the cache: thirteen distinct ids with
`blob:` object URLs, inserted in order. -/
def ex13 : List (Nat × String) :=
  [(1, "blob:u1"), (2, "blob:u2"), (3, "blob:u3"), (4, "blob:u4"),
   (5, "blob:u5"), (6, "blob:u6"), (7, "blob:u7"), (8, "blob:u8"),
   (9, "blob:u9"), (10, "blob:u10"), (11, "blob:u11"), (12, "blob:u12"),
   (13, "blob:u13")]

/-- The per-id mutual-exclusion invariant of the speculative path: at
most one outstanding prefetch synthesis per id, and every outstanding
prefetch holds its id in the in-flight set. -/
def WarmInv (s : WarmState) : Prop :=
  ∀ id, s.pFetching.count id ≤ 1 ∧ (id ∈ s.pFetching → id ∈ s.inflight)

/-! # Theorems -/

/-! ## C10: /api/tts truncation -/

/-- Claim C10: for every POST /api/tts request with non-empty text, the
text forwarded to the synthesis provider is at most 4800 characters long;
inputs of length at most 4800 pass through unchanged, and longer inputs
are truncated to their first 4799 characters followed by a single
ellipsis character. -/
theorem C10_tts_truncation (t r : List Char) (h : ttsHandlerText t = .ok r) :
    r.length ≤ MAX ∧ (t.length ≤ MAX → r = t) ∧
      (MAX < t.length → r = t.take (MAX - 1) ++ ['…']) := by
  have hr : r = safeText t := by
    unfold ttsHandlerText at h
    split at h
    · exact (Except.noConfusion h)
    · exact (Except.ok.inj h).symm
  subst hr
  unfold safeText
  split
  · next hgt =>
    refine ⟨?_, fun hle => absurd hgt (by omega), fun _ => rfl⟩
    simp only [List.length_append, List.length_take, List.length_cons,
      List.length_nil, MAX] at *
    omega
  · next hle =>
    exact ⟨by omega, fun _ => rfl, fun hgt => absurd hgt (by omega)⟩

/-- Witness for C10 at the concrete input "hi". -/
theorem C10_tts_truncation_witness :
    ttsHandlerText ['h', 'i'] = .ok ['h', 'i'] ∧ (['h', 'i'] : List Char).length ≤ MAX :=
  ⟨rfl, (C10_tts_truncation ['h', 'i'] ['h', 'i'] rfl).1⟩

/-! ## C9: `_rms` returns the RMS of the normalised samples, in [0, 1] -/

/-- Each squared normalised sample of a byte is at most one. -/
theorem normSample_sq_le_one (b : Nat) (hb : b ≤ 255) :
    normSample b * normSample b ≤ 1 := by
  have h0 : (0 : ℚ) ≤ (b : ℚ) := by positivity
  have h255 : (b : ℚ) ≤ 255 := by exact_mod_cast hb
  have hlo : (-1 : ℚ) ≤ normSample b := by
    unfold normSample
    rw [le_div_iff₀ (by norm_num : (0:ℚ) < 128)]
    linarith
  have hhi : normSample b ≤ 1 := by
    unfold normSample
    rw [div_le_one (by norm_num : (0:ℚ) < 128)]
    linarith
  nlinarith

/-- The mean of the squared normalised samples is at most one. -/
theorem meanSquare_le_one (buf : List Nat) (hne : buf ≠ [])
    (hb : ∀ b ∈ buf, b ≤ 255) : meanSquare buf ≤ 1 := by
  have hlen : (0 : ℚ) < buf.length := by
    have : 0 < buf.length := List.length_pos.mpr hne
    exact_mod_cast this
  have hsum : sumSquares buf ≤ (buf.length : ℚ) := by
    unfold sumSquares
    have h1 : ∀ x ∈ buf.map (fun b => normSample b * normSample b), x ≤ (1 : ℚ) := by
      intro x hx
      obtain ⟨b, hbmem, rfl⟩ := List.mem_map.mp hx
      exact normSample_sq_le_one b (hb b hbmem)
    calc (buf.map (fun b => normSample b * normSample b)).sum
        ≤ (buf.map (fun b => normSample b * normSample b)).length • (1 : ℚ) :=
          List.sum_le_card_nsmul _ _ h1
      _ = (buf.length : ℚ) := by simp
  unfold meanSquare
  rw [div_le_one hlen]
  exact hsum

/-- The mean of the squared normalised samples is nonnegative. -/
theorem meanSquare_nonneg (buf : List Nat) : 0 ≤ meanSquare buf := by
  unfold meanSquare sumSquares
  apply div_nonneg
  · apply List.sum_nonneg
    intro x hx
    obtain ⟨b, _, rfl⟩ := List.mem_map.mp hx
    exact mul_self_nonneg _
  · positivity

/-- Claim C9: for every non-empty byte buffer (samples in 0..255), `_rms`
returns the root mean square of the normalised amplitudes
`(sample - 128)/128`, and the returned value lies in [0, 1]. -/
theorem C9_rms_range (buf : List Nat) (hne : buf ≠ []) (hb : ∀ b ∈ buf, b ≤ 255) :
    _rms buf = Real.sqrt ((sumSquares buf : ℚ) / (buf.length : ℚ)) ∧
      0 ≤ _rms buf ∧ _rms buf ≤ 1 := by
  refine ⟨by rw [_rms, meanSquare]; push_cast; rfl, Real.sqrt_nonneg _, ?_⟩
  have h1 : meanSquare buf ≤ 1 := meanSquare_le_one buf hne hb
  have h1R : ((meanSquare buf : ℚ) : ℝ) ≤ 1 := by exact_mod_cast h1
  calc _rms buf = Real.sqrt ((meanSquare buf : ℚ) : ℝ) := rfl
    _ ≤ Real.sqrt 1 := Real.sqrt_le_sqrt h1R
    _ = 1 := Real.sqrt_one

/-- Witness for C9 at the one-sample buffer [128]. -/
theorem C9_rms_range_witness :
    ([128] : List Nat) ≠ [] ∧ (0 ≤ _rms [128] ∧ _rms [128] ≤ 1) :=
  ⟨by decide, (C9_rms_range [128] (by decide) (by decide)).2⟩

/-! ## C3: cache invariant and insertion-ordered eviction -/

/-- `cacheSet` preserves the cache invariant (one entry per id, at most
`MAX_CACHE` entries). -/
theorem cacheSet_inv (c : Cache) (id : Nat) (url : String) (h : CacheInv c) :
    CacheInv (cacheSet c id url) := by
  obtain ⟨hnd, hlen⟩ := h
  have hndApp : id ∉ c.keys → ((c.entries ++ [(id, url)]).map Prod.fst).Nodup := by
    intro hmem
    rw [List.map_append]
    refine List.Nodup.append hnd (by simp) ?_
    intro a ha hb
    simp at hb
    subst hb
    exact hmem ha
  unfold cacheSet
  split
  · exact ⟨hnd, hlen⟩
  · next hmem =>
    dsimp only
    split
    · next hover =>
      rcases hc : c.entries with _ | ⟨e, rest⟩
      · rw [hc] at hover
        simp [MAX_CACHE] at hover
      · have hnd2 := hndApp hmem
        rw [hc] at hnd2 hlen
        simp only [List.cons_append, List.map_cons] at hnd2
        constructor
        · simpa [evictOldest, Cache.keys] using hnd2.of_cons
        · simp only [evictOldest, List.cons_append]
          simp only [List.length_cons] at hlen ⊢
          simp only [List.length_append, List.length_cons, List.length_nil]
          omega
    · next hok =>
      refine ⟨hndApp hmem, ?_⟩
      simp only [List.length_append, List.length_cons, List.length_nil] at hok ⊢
      omega

/-- `insertAll` over a list extended by one insertion. -/
theorem insertAll_append (l : List (Nat × String)) (p : Nat × String) :
    insertAll (l ++ [p]) = cacheSet (insertAll l) p.1 p.2 := by
  simp [insertAll, List.foldl_append]

/-- Inserting distinct ids with `blob:` URLs in order: the cache retains
exactly the last `MAX_CACHE` insertions and has revoked exactly the URLs
of the earlier ones, oldest first. -/
theorem insertAll_spec (l : List (Nat × String))
    (hnd : (l.map Prod.fst).Nodup)
    (hurl : ∀ p ∈ l, isBlobUrl p.2 = true) :
    (insertAll l).entries = l.drop (l.length - MAX_CACHE) ∧
      (insertAll l).revoked = (l.take (l.length - MAX_CACHE)).map Prod.snd := by
  induction l using List.reverseRecOn with
  | nil => simp [insertAll, Cache.empty]
  | append_singleton l p ih =>
    rw [List.map_append, List.nodup_append] at hnd
    obtain ⟨hndl, -, hdisj⟩ := hnd
    have hpnotin : p.1 ∉ l.map Prod.fst := fun hmem => hdisj hmem (by simp)
    have hurll : ∀ q ∈ l, isBlobUrl q.2 = true :=
      fun q hq => hurl q (List.mem_append_left _ hq)
    obtain ⟨ihE, ihR⟩ := ih hndl hurll
    have hpnotkeys : p.1 ∉ (insertAll l).keys := by
      intro hmem
      apply hpnotin
      rw [Cache.keys, ihE] at hmem
      obtain ⟨q, hq, hq2⟩ := List.mem_map.mp hmem
      exact List.mem_map.mpr ⟨q, List.drop_subset _ _ hq, hq2⟩
    rw [insertAll_append]
    unfold cacheSet
    rw [if_neg hpnotkeys]
    dsimp only
    by_cases hcase : l.length < MAX_CACHE
    · have hk0 : l.length - MAX_CACHE = 0 := by omega
      have hk0' : l.length + 1 - MAX_CACHE = 0 := by omega
      rw [if_neg]
      · constructor
        · simp [ihE, hk0, List.length_append, hk0']
        · simp [ihR, hk0, List.length_append, hk0']
      · rw [ihE, hk0, List.drop_zero]
        simp only [List.length_append, List.length_cons, List.length_nil]
        omega
    · have hk : l.length - MAX_CACHE + MAX_CACHE = l.length := by omega
      have hlendrop : (l.drop (l.length - MAX_CACHE)).length = MAX_CACHE := by
        rw [List.length_drop]
        omega
      have hne : l.drop (l.length - MAX_CACHE) ≠ [] := by
        intro hnil
        rw [hnil] at hlendrop
        simp [MAX_CACHE] at hlendrop
      obtain ⟨q0, qt, hq⟩ := List.exists_cons_of_ne_nil hne
      have hq0mem : q0 ∈ l := List.drop_subset _ _ (hq ▸ List.mem_cons_self q0 qt)
      have hq0url : isBlobUrl q0.2 = true := hurll q0 hq0mem
      have hqtlen : qt.length + 1 = MAX_CACHE := by
        rw [hq] at hlendrop
        simpa using hlendrop
      rw [if_pos]
      · rw [ihE, ihR, hq]
        simp only [List.cons_append, evictOldest, hq0url, if_pos]
        constructor
        · have h1 : l.length + 1 - MAX_CACHE = (l.length - MAX_CACHE) + 1 := by omega
          rw [List.length_append, List.length_cons, List.length_nil, h1,
            List.drop_append_of_le_length (by omega), ← List.tail_drop, hq]
          simp
        · have h1 : l.length + 1 - MAX_CACHE = (l.length - MAX_CACHE) + 1 := by omega
          rw [List.length_append, List.length_cons, List.length_nil, h1,
            List.take_append_of_le_length (by omega), List.take_add, hq]
          simp
      · rw [ihE]
        simp only [List.length_append, List.length_cons, List.length_nil, hlendrop]
        simp [MAX_CACHE]

/-- Claim C3: after every completed `cacheSet` call the cache holds at
most one entry per itemId and at most `MAX_CACHE` (12) entries; inserting
`MAX_CACHE + k` distinct ids in order leaves exactly the last `MAX_CACHE`
ids resident, each overflow evicting exactly the single oldest-inserted
surviving entry and revoking its audio handle; in particular inserting
ids 1..13 evicts id 1 only. -/
theorem C3_cache_bound_eviction :
    (∀ (c : Cache) (id : Nat) (url : String), CacheInv c → CacheInv (cacheSet c id url)) ∧
    (∀ l : List (Nat × String), (l.map Prod.fst).Nodup →
        (∀ p ∈ l, isBlobUrl p.2 = true) →
        (insertAll l).entries = l.drop (l.length - MAX_CACHE) ∧
          (insertAll l).revoked = (l.take (l.length - MAX_CACHE)).map Prod.snd) ∧
    ((insertAll ex13).keys = [2, 3, 4, 5, 6, 7, 8, 9, 10, 11, 12, 13] ∧
      (insertAll ex13).revoked = ["blob:u1"]) :=
  ⟨cacheSet_inv, insertAll_spec, by decide⟩

/-- Witness for C3: the invariant-preservation part applied to a concrete
insertion into the empty cache. -/
theorem C3_cache_bound_eviction_witness :
    CacheInv Cache.empty ∧ CacheInv (cacheSet Cache.empty 1 "blob:a") :=
  ⟨⟨by decide, by decide⟩,
    C3_cache_bound_eviction.1 Cache.empty 1 "blob:a" ⟨by decide, by decide⟩⟩

/-! ## C8: per-candidate failure isolation in `warmPrefetch` -/

/-- Eviction removes exactly the head entry. -/
theorem evictOldest_entries (c : Cache) : (evictOldest c).entries = c.entries.tail := by
  rcases hc : c.entries with _ | ⟨e, rest⟩ <;> simp [evictOldest, hc]

/-- `cacheSet` can only add the inserted id to the resident keys. -/
theorem cacheSet_keys_subset (c : Cache) (id : Nat) (url : String) :
    (cacheSet c id url).keys ⊆ c.keys ++ [id] := by
  unfold cacheSet
  split
  · exact fun a ha => List.mem_append_left _ ha
  · dsimp only
    split
    · intro a ha
      rw [Cache.keys, evictOldest_entries] at ha
      have ha2 : a ∈ (c.entries ++ [(id, url)]).map Prod.fst :=
        List.map_subset _ (List.tail_subset _) ha
      simpa [Cache.keys] using ha2
    · intro a ha
      simpa [Cache.keys] using ha

/-- Behaviour of one `prefetchOneCard` call: it never rejects, restores
the in-flight set, starts at most one fetch (none when the id was already
covered), leaves the cache untouched when the fetch fails, can only add
the processed id to the cache, and does start the fetch whenever the id
was uncovered. -/
theorem prefetchOneCard_spec (fetch : Nat → FetchOutcome) (s : PrefetchState) (id : Nat) :
    ∃ s', prefetchOneCard fetch s id = .ok s' ∧
      s'.inflight = s.inflight ∧
      (∃ a, a.Sublist [id] ∧ s'.attempts = s.attempts ++ a) ∧
      s'.cache.keys ⊆ s.cache.keys ++ [id] ∧
      ((fetch id).failed → s'.cache = s.cache) ∧
      (id ∉ s.cache.keys → id ∉ s.inflight → s'.attempts = s.attempts ++ [id]) := by
  unfold prefetchOneCard
  split
  · next hcov =>
    refine ⟨s, rfl, rfl, ⟨[], by simp, by simp⟩, fun a ha => List.mem_append_left _ ha,
      fun _ => rfl, fun hk hi => ?_⟩
    rcases hcov with h | h
    · exact absurd h hk
    · exact absurd h hi
  · next hcov =>
    dsimp only
    rcases hfetch : fetch id with url | _ | e
    · refine ⟨_, rfl, ?_, ?_, ?_, ?_, ?_⟩
      · simp [prefetchBody, hfetch, List.erase_cons_head]
      · exact ⟨[id], by simp, by simp [prefetchBody, hfetch]⟩
      · simp only [prefetchBody, hfetch]
        exact cacheSet_keys_subset s.cache id url
      · intro hfail
        exact False.elim hfail
      · intro _ _
        simp [prefetchBody, hfetch]
    · refine ⟨_, rfl, ?_, ?_, ?_, ?_, ?_⟩
      · simp [prefetchBody, hfetch, List.erase_cons_head]
      · exact ⟨[id], by simp, by simp [prefetchBody, hfetch]⟩
      · simp only [prefetchBody, hfetch]
        exact fun a ha => List.mem_append_left _ ha
      · intro _
        simp [prefetchBody, hfetch]
      · intro _ _
        simp [prefetchBody, hfetch]
    · refine ⟨_, rfl, ?_, ?_, ?_, ?_, ?_⟩
      · simp [prefetchBody, hfetch, List.erase_cons_head]
      · exact ⟨[id], by simp, by simp [prefetchBody, hfetch]⟩
      · simp only [prefetchBody, hfetch]
        exact fun a ha => List.mem_append_left _ ha
      · intro _
        simp [prefetchBody, hfetch]
      · intro _ _
        simp [prefetchBody, hfetch]

/-- Behaviour of a whole worker-pool pass over a worklist: the fold never
rejects, restores the in-flight set, attempts each worklist id at most
once (`t` is a sublist of the worklist), creates no cache entry for a
failing id, and — when the worklist is duplicate-free — attempts every
uncovered candidate even if other candidates fail. -/
theorem warmFold_spec (fetch : Nat → FetchOutcome) :
    ∀ (work : List Nat) (s : PrefetchState),
      ∃ s' t, work.foldlM (prefetchOneCard fetch) s = .ok s' ∧
        s'.inflight = s.inflight ∧
        s'.attempts = s.attempts ++ t ∧ t.Sublist work ∧
        s'.cache.keys ⊆ s.cache.keys ++ work ∧
        (∀ id, (fetch id).failed → id ∉ s.cache.keys → id ∉ s'.cache.keys) ∧
        (work.Nodup → ∀ id ∈ work, id ∉ s.cache.keys → id ∉ s.inflight → id ∈ t) := by
  intro work
  induction work with
  | nil =>
    intro s
    exact ⟨s, [], rfl, rfl, by simp, by simp, by simp, fun id _ h => h, by simp⟩
  | cons w ws ih =>
    intro s
    obtain ⟨s1, hok1, hinf1, ⟨a, hsub1, hatt1⟩, hkeys1, hfail1, hproc1⟩ :=
      prefetchOneCard_spec fetch s w
    obtain ⟨s', t', hok', hinf', hatt', hsub', hkeys', hfail', hproc'⟩ := ih s1
    refine ⟨s', a ++ t', ?_, ?_, ?_, ?_, ?_, ?_, ?_⟩
    · rw [List.foldlM_cons, hok1]
      exact hok'
    · rw [hinf', hinf1]
    · rw [hatt', hatt1, List.append_assoc]
    · exact List.Sublist.append hsub1 hsub'
    · intro x hx
      rcases List.mem_append.mp (hkeys' hx) with hx1 | hx1
      · rcases List.mem_append.mp (hkeys1 hx1) with hx2 | hx2
        · exact List.mem_append_left _ hx2
        · simp only [List.mem_singleton] at hx2
          subst hx2
          simp
      · simp [List.mem_cons.mpr (Or.inr hx1)]
    · intro id hidfail hidnot
      apply hfail' id hidfail
      intro hid1
      rcases List.mem_append.mp (hkeys1 hid1) with hx | hx
      · exact hidnot hx
      · simp only [List.mem_singleton] at hx
        subst hx
        have := hfail1 hidfail
        rw [this] at hid1
        exact hidnot hid1
    · intro hnd id hidmem hknot hinot
      rcases List.mem_cons.mp hidmem with rfl | hmem
      · have hattw := hproc1 hknot hinot
        rw [hatt1] at hattw
        have ha : a = [id] := List.append_cancel_left hattw
        subst ha
        simp
      · have hne : id ≠ w := by
          intro h
          subst h
          exact (List.nodup_cons.mp hnd).1 hmem
        have hk1 : id ∉ s1.cache.keys := by
          intro hx
          rcases List.mem_append.mp (hkeys1 hx) with hx2 | hx2
          · exact hknot hx2
          · simp only [List.mem_singleton] at hx2
            exact hne hx2
        have hi1 : id ∉ s1.inflight := by
          rw [hinf1]
          exact hinot
        have := hproc' (List.nodup_cons.mp hnd).2 id hmem hk1 hi1
        exact List.mem_append_right _ this

/-- Claim C8: for every candidate id whose fetch or synthesis fails
during a warm call, no cache entry is created for that id; every
processed id is removed from the in-flight set at fetch end regardless of
success or failure (the in-flight set is restored); a failing candidate
is attempted at most once per warm call (the attempted ids form a
sublist of the worklist, so there is no retry); the failure never
propagates out of `warmPrefetch` (the fold always returns `.ok`); and the
pool keeps processing the remaining candidates (every uncovered candidate
of a duplicate-free worklist is attempted). -/
theorem C8_warm_failure_isolation (fetch : Nat → FetchOutcome) (s : PrefetchState)
    (cands : List Nat) (excl : Option Nat) (n : Nat) :
    ∃ s' t, warmPrefetch fetch s cands excl n = .ok s' ∧
      s'.inflight = s.inflight ∧
      s'.attempts = s.attempts ++ t ∧ t.Sublist (warmList cands excl n) ∧
      (∀ id, (fetch id).failed → id ∉ s.cache.keys → id ∉ s'.cache.keys) ∧
      ((warmList cands excl n).Nodup →
        ∀ id ∈ warmList cands excl n, id ∉ s.cache.keys → id ∉ s.inflight → id ∈ t) := by
  obtain ⟨s', t, hok, hinf, hatt, hsub, -, hfail, hproc⟩ :=
    warmFold_spec fetch (warmList cands excl n) s
  exact ⟨s', t, hok, hinf, hatt, hsub, hfail, hproc⟩

/-- Witness for C8: three candidates of which the middle one throws; the
warm call still succeeds, attempts all three, caches nothing for the
failing id, and restores the in-flight set. -/
theorem C8_warm_failure_isolation_witness :
    ∃ s' t,
      warmPrefetch
          (fun id => if id = 2 then .err "boom" else .ok "blob:x")
          ⟨Cache.empty, [], []⟩ [1, 2, 3] none 5 = .ok s' ∧
        s'.inflight = (⟨Cache.empty, [], []⟩ : PrefetchState).inflight ∧
        s'.attempts = (⟨Cache.empty, [], []⟩ : PrefetchState).attempts ++ t ∧
        t.Sublist (warmList [1, 2, 3] none 5) ∧
        (∀ id, ((fun id => if id = 2 then FetchOutcome.err "boom" else .ok "blob:x") id).failed →
          id ∉ (⟨Cache.empty, [], []⟩ : PrefetchState).cache.keys → id ∉ s'.cache.keys) ∧
        ((warmList [1, 2, 3] none 5).Nodup →
          ∀ id ∈ warmList [1, 2, 3] none 5,
            id ∉ (⟨Cache.empty, [], []⟩ : PrefetchState).cache.keys →
            id ∉ (⟨Cache.empty, [], []⟩ : PrefetchState).inflight → id ∈ t) :=
  C8_warm_failure_isolation
    (fun id => if id = 2 then .err "boom" else .ok "blob:x")
    ⟨Cache.empty, [], []⟩ [1, 2, 3] none 5

/-! ## C2: at most one outstanding synthesis per id? -/

/-- Each atomic block preserves the speculative-path invariant. -/
theorem warmStep_inv (s : WarmState) (e : WarmEvent) (h : WarmInv s) :
    WarmInv (warmStep s e) := by
  cases e with
  | pStart id0 =>
    simp only [warmStep]
    split
    · exact h
    · next hcov =>
      push_neg at hcov
      intro id
      constructor
      · simp only [List.count_cons]
        rcases eq_or_ne id id0 with rfl | hne
        · have h0 : id ∉ s.pFetching := fun hmem => hcov.2 ((h id).2 hmem)
          simp [List.count_eq_zero.mpr h0]
        · simpa [Ne.symm hne] using (h id).1
      · intro hmem
        rcases List.mem_cons.mp hmem with rfl | hmem2
        · exact List.mem_cons_self _ _
        · exact List.mem_cons_of_mem _ ((h id).2 hmem2)
  | pFinish id0 ok url =>
    simp only [warmStep]
    split
    · intro id
      constructor
      · calc List.count id (s.pFetching.erase id0) ≤ List.count id s.pFetching :=
              (List.erase_sublist _ _).count_le _
          _ ≤ 1 := (h id).1
      · intro hmem
        rcases eq_or_ne id id0 with rfl | hne
        · exfalso
          have hc := List.count_erase_self id s.pFetching
          have hpos : 0 < List.count id (s.pFetching.erase id) :=
            List.count_pos_iff.mpr hmem
          have hle := (h id).1
          omega
        · exact (List.mem_erase_of_ne hne).mpr
            ((h id).2 (List.mem_of_mem_erase hmem))
    · exact h
  | oStart id0 =>
    simp only [warmStep]
    split
    · exact h
    · exact fun id => (h id)
  | oFinish id0 ok url =>
    simp only [warmStep]
    split
    · exact fun id => (h id)
    · exact h

/-- The invariant holds along every interleaving. -/
theorem warmFoldl_inv :
    ∀ (evs : List WarmEvent) (s : WarmState), WarmInv s → WarmInv (evs.foldl warmStep s)
  | [], _, h => h
  | e :: evs, s, h => warmFoldl_inv evs _ (warmStep_inv s e h)

/-- Counterexample to claim C2 as stated: the on-demand path of
`ttsSpeakCardFront` consults only the cache, so starting an on-demand
synthesis for id 5 while the prefetch of id 5 is still in flight yields
two outstanding synthesis requests for the same id. -/
theorem C2_counterexample :
    ¬ ∀ (evs : List WarmEvent) (id : Nat), (warmRun evs).outstanding id ≤ 1 := by
  intro h
  have h2 := h [WarmEvent.pStart 5, WarmEvent.oStart 5] 5
  have h3 : (warmRun [WarmEvent.pStart 5, WarmEvent.oStart 5]).outstanding 5 = 2 := by
    decide
  omega

/-- Claim C2 (amended): within the speculative prefetch path the
admission check against the cache and the in-flight set guarantees at
most one outstanding prefetch synthesis per itemId along every
interleaving; the on-demand path checks only the cache and is not covered
by the guarantee. -/
theorem C2_prefetch_single_flight (evs : List WarmEvent) (id : Nat) :
    (warmRun evs).pFetching.count id ≤ 1 :=
  ((warmFoldl_inv evs warmInit (fun i => by simp [warmInit])) id).1

/-! ## C7: guard behaviour of `recordOneUtterance` and external `stop()` -/

/-- Claim C7: `recordOneUtterance` resolves to an empty result and never
hangs or throws when (a) it is called before `start()` (immediate `null`,
also after a `stop()`), and (b) `stop()` is invoked externally while a
capture is pending (the promise resolves empty at the next poll tick). -/
theorem C7_record_guards :
    (∀ (cfg : RecCfg) (frames : List Frame),
        recordOneUtterance SpeechOnce.mk0 cfg frames = .resolved none initSTT 0) ∧
    (∀ (sp : SpeechOnce) (cfg : RecCfg) (frames : List Frame),
        recordOneUtterance (SpeechOnce.stop sp) cfg frames = .resolved none initSTT 0) ∧
    (∀ (cfg : RecCfg) (s : STTState) (f : Frame) (fs : List Frame),
        f.extStop = true →
        runTicks cfg s (f :: fs) = .resolved none { s with running := false } f.now) := by
  refine ⟨fun cfg frames => rfl, fun sp cfg frames => rfl,
    fun cfg s f fs hstop => ?_⟩
  simp [runTicks, tick, hstop]

/-- Witness for C7: a pending capture whose first tick follows an
external `stop()` resolves empty at that tick. -/
theorem C7_record_guards_witness :
    runTicks ⟨2/100, 4, 60, 60000⟩ initSTT [⟨0, 50, 0, false, true⟩] =
      .resolved none { initSTT with running := false } 50 :=
  C7_record_guards.2.2 ⟨2/100, 4, 60, 60000⟩ initSTT ⟨0, 50, 0, false, true⟩ [] rfl

/-! ## C5: forced stops flush the pending chunk before finalizing -/

/-- Resolution through `requestData(); stop();` from a recording state:
the pending buffer is delivered, so the resolved state has no pending
bytes and its chunk list extends the delivered chunks by the flushed
buffer. -/
theorem flush_resolve (spk sil : Nat) (ch : List Nat) (pd : Nat)
    (b : Option (List Nat)) (s' : STTState)
    (h : TickResult.resolvedNow
          (finalizeBlob (requestDataFlush ⟨true, spk, sil, true, ch, pd⟩))
          (requestDataFlush ⟨true, spk, sil, true, ch, pd⟩) = .resolvedNow b s') :
    ch <+: s'.chunks ∧ s'.pending = 0 ∧ s'.chunks.sum = ch.sum + pd ∧
      (b = none → s'.chunks = []) ∧
      (∀ l, b = some l → l = s'.chunks ∧ ch.sum ≤ l.sum) := by
  by_cases hp : 0 < pd
  · rw [show requestDataFlush ⟨true, spk, sil, true, ch, pd⟩ =
        ⟨true, spk, sil, true, ch ++ [pd], 0⟩ from by
          simp [requestDataFlush, hp]] at h
    injection h with hb hs
    subst hs
    subst hb
    refine ⟨List.prefix_append _ _, rfl, by simp [List.sum_append], ?_, ?_⟩
    · intro hnone
      simp [finalizeBlob] at hnone
    · intro l hl
      have hle : l = ch ++ [pd] := by
        simp only [finalizeBlob] at hl
        rw [if_neg (by simp)] at hl
        exact (Option.some.inj hl).symm
      subst hle
      simp [List.sum_append]
  · rw [show requestDataFlush ⟨true, spk, sil, true, ch, pd⟩ =
        ⟨true, spk, sil, true, ch, pd⟩ from by
          simp [requestDataFlush, hp]] at h
    injection h with hb hs
    subst hs
    subst hb
    have hpd : pd = 0 := by omega
    subst hpd
    refine ⟨List.prefix_rfl, rfl, by simp, ?_, ?_⟩
    · intro hnone
      simp only [finalizeBlob] at hnone
      split at hnone
      · next hemp => simpa using hemp
      · exact absurd hnone (by simp)
    · intro l hl
      simp only [finalizeBlob] at hl
      split at hl
      · exact absurd hl (by simp)
      · have he : l = ch := (Option.some.inj hl).symm
        exact ⟨he, by simp [he]⟩

/-- A tick that settles the promise from a recording state resolves
through the `requestData(); stop();` sequence: relative to the
audio-delivery result of the tick, the resolved blob carries all chunks
and the flushed pending buffer. -/
theorem tick_recording_resolve (cfg : RecCfg) (spk sil : Nat) (ch chD : List Nat)
    (pd pD : Nat) (f : Frame) (b : Option (List Nat)) (s' : STTState)
    (hstop : f.extStop = false)
    (hdel : deliverAudio ⟨true, spk, sil, true, ch, pd⟩ f = ⟨true, spk, sil, true, chD, pD⟩)
    (htick : tick cfg ⟨true, spk, sil, true, ch, pd⟩ f = .resolvedNow b s') :
    chD <+: s'.chunks ∧ s'.pending = 0 ∧ s'.chunks.sum = chD.sum + pD ∧
      (b = none → s'.chunks = []) ∧
      (∀ l, b = some l → l = s'.chunks ∧ chD.sum ≤ l.sum) := by
  unfold tick at htick
  rw [hstop] at htick
  simp only [Bool.false_eq_true, if_false, hdel] at htick
  simp only [Bool.true_eq_false, if_false] at htick
  by_cases hend : cfg.endFrames ≤ (if f.energy ≤ cfg.rmsThreshold then sil + 1 else 0)
  · rw [if_pos hend] at htick
    exact flush_resolve _ _ _ _ _ _ htick
  · rw [if_neg hend] at htick
    by_cases htime : cfg.maxUtteranceMs < f.now
    · rw [if_pos htime] at htick
      exact flush_resolve _ _ _ _ _ _ htick
    · rw [if_neg htime] at htick
      exact absurd htick (by simp)

/-- Claim C5: in every forced stop of a capture — silence-triggered
(`endFrames` consecutive sub-threshold readings) or time-triggered
(elapsed time past `maxUtteranceMs`) — the code requests a final data
flush (`requestData()`), then stops the recorder, then finalizes, so the
returned blob contains every buffered chunk including the flushed last
one: no byte stays pending, the previously delivered chunks are a prefix
of the blob, the blob's total size accounts for all buffered audio, and
in particular the blob size is at least the size at the last (hence the
second-to-last) chunk boundary. -/
theorem C5_forced_stop_flush (cfg : RecCfg) (s : STTState) (f : Frame)
    (b : Option (List Nat)) (s' : STTState)
    (hrun : s.running = true) (hstop : f.extStop = false) (hrec : s.recording = true)
    (htick : tick cfg s f = .resolvedNow b s') :
    s.chunks <+: s'.chunks ∧ s'.pending = 0 ∧
      s'.chunks.sum = s.chunks.sum + s.pending + f.bytes ∧
      (b = none → s'.chunks = []) ∧
      (∀ l, b = some l → l = s'.chunks ∧ s.chunks.sum ≤ l.sum) := by
  obtain ⟨run, spk, sil, rec, ch, pd⟩ := s
  simp only at hrun hrec
  subst hrun
  subst hrec
  dsimp only
  by_cases hbnd : f.boundary = true ∧ 0 < pd + f.bytes
  · have hdel : deliverAudio ⟨true, spk, sil, true, ch, pd⟩ f =
        ⟨true, spk, sil, true, ch ++ [pd + f.bytes], 0⟩ := by
      simp [deliverAudio, hbnd.1, hbnd.2]
    obtain ⟨h1, h2, h3, h4, h5⟩ :=
      tick_recording_resolve cfg spk sil ch (ch ++ [pd + f.bytes]) pd 0 f b s' hstop hdel htick
    refine ⟨(List.prefix_append _ _).trans h1, h2, ?_, h4, ?_⟩
    · rw [h3]
      simp only [List.sum_append, List.sum_cons, List.sum_nil]
      omega
    · intro l hl
      obtain ⟨he, hle⟩ := h5 l hl
      refine ⟨he, le_trans ?_ hle⟩
      simp [List.sum_append]
  · have hdel : deliverAudio ⟨true, spk, sil, true, ch, pd⟩ f =
        ⟨true, spk, sil, true, ch, pd + f.bytes⟩ := by
      unfold deliverAudio
      rw [if_pos rfl]
      dsimp only
      rw [if_neg (by simpa using hbnd)]
    obtain ⟨h1, h2, h3, h4, h5⟩ :=
      tick_recording_resolve cfg spk sil ch ch pd (pd + f.bytes) f b s' hstop hdel htick
    refine ⟨h1, h2, by rw [h3]; omega, h4, h5⟩

/-- Witness for C5: a silence-triggered stop with one delivered chunk of
size 10 and 7 pending bytes plus 5 arriving bytes yields the blob
[10, 12]. -/
theorem C5_forced_stop_flush_witness :
    (⟨true, 4, 0, true, [10], 7⟩ : STTState).chunks <+:
        (⟨true, 4, 1, true, [10, 12], 0⟩ : STTState).chunks ∧
      (⟨true, 4, 1, true, [10, 12], 0⟩ : STTState).pending = 0 ∧
      (⟨true, 4, 1, true, [10, 12], 0⟩ : STTState).chunks.sum =
        (⟨true, 4, 0, true, [10], 7⟩ : STTState).chunks.sum + 7 + 5 ∧
      ((some [10, 12] : Option (List Nat)) = none →
        (⟨true, 4, 1, true, [10, 12], 0⟩ : STTState).chunks = []) ∧
      (∀ l, (some [10, 12] : Option (List Nat)) = some l →
        l = (⟨true, 4, 1, true, [10, 12], 0⟩ : STTState).chunks ∧
          (⟨true, 4, 0, true, [10], 7⟩ : STTState).chunks.sum ≤ l.sum) :=
  C5_forced_stop_flush ⟨0, 4, 1, 60000⟩ ⟨true, 4, 0, true, [10], 7⟩
    ⟨0, 100, 5, false, false⟩ (some [10, 12]) ⟨true, 4, 1, true, [10, 12], 0⟩
    rfl rfl rfl (by decide)

/-! ## C4: debounce run-length bookkeeping -/

/-- The debounce counter after one more energy value. -/
theorem trailRun_append (p : ℚ → Bool) (l : List ℚ) (e : ℚ) :
    trailRun p (l ++ [e]) = if p e then trailRun p l + 1 else 0 := by
  unfold trailRun
  rw [List.foldl_append]
  rfl

/-- The debounce counter value is realized by a suffix of satisfying
elements. -/
theorem trailRun_realize (p : ℚ → Bool) (l : List ℚ) :
    ∃ w, w <:+ l ∧ (∀ e ∈ w, p e = true) ∧ w.length = trailRun p l := by
  induction l using List.reverseRecOn with
  | nil => exact ⟨[], by simp, by simp, by simp [trailRun]⟩
  | append_singleton l a ih =>
    by_cases hp : p a = true
    · obtain ⟨w, hsuf, hall, hlen⟩ := ih
      refine ⟨w ++ [a], ?_, ?_, ?_⟩
      · obtain ⟨t, ht⟩ := hsuf
        exact ⟨t, by rw [← List.append_assoc, ht]⟩
      · intro e he
        rcases List.mem_append.mp he with h | h
        · exact hall e h
        · simp only [List.mem_singleton] at h
          subst h
          exact hp
      · rw [List.length_append, hlen, trailRun_append, if_pos hp]
        simp
    · refine ⟨[], by simp, by simp, ?_⟩
      rw [trailRun_append, if_neg hp]
      rfl

/-- If no contiguous run of `p`-satisfying energies in `pfx ++ v` reaches
`bound`, the replayed debounce counter stays below `bound` along `v`. -/
theorem runOK_of_no_long_run (p : ℚ → Bool) (bound : Nat) :
    ∀ (v pfx : List ℚ),
      (∀ w, w <:+: (pfx ++ v) → (∀ e ∈ w, p e = true) → w.length < bound) →
      runOK p bound (trailRun p pfx) v = true := by
  intro v
  induction v with
  | nil => intro pfx _; rfl
  | cons e es ih =>
    intro pfx h
    unfold runOK
    by_cases hp : p e = true
    · rw [if_pos hp, Bool.and_eq_true]
      constructor
      · obtain ⟨w, hsuf, hall, hlen⟩ := trailRun_realize p pfx
        have hinf : (w ++ [e]) <:+: (pfx ++ e :: es) := by
          obtain ⟨t, ht⟩ := hsuf
          refine ⟨t, es, ?_⟩
          rw [← ht]
          simp
        have hlt := h (w ++ [e]) hinf ?_
        · apply decide_eq_true
          rw [List.length_append] at hlt
          simp only [List.length_cons, List.length_nil] at hlt
          omega
        · intro x hx
          rcases List.mem_append.mp hx with hx1 | hx1
          · exact hall x hx1
          · simp only [List.mem_singleton] at hx1
            subst hx1
            exact hp
      · have hres := ih (pfx ++ [e]) ?_
        · rw [trailRun_append, if_pos hp] at hres
          exact hres
        · intro w hw hall
          apply h w ?_ hall
          rw [List.append_assoc] at hw
          simpa using hw
    · rw [if_neg hp]
      have hres := ih (pfx ++ [e]) ?_
      · rw [trailRun_append, if_neg hp] at hres
        exact hres
      · intro w hw hall
        apply h w ?_ hall
        rw [List.append_assoc] at hw
        simpa using hw

/-- A tick in the idle (not yet recording) state below the time limit
debounces `speakingFrames` and possibly transitions to recording. -/
theorem tick_idle_eq (cfg : RecCfg) (spk sil : Nat) (ch : List Nat) (pd : Nat) (f : Frame)
    (hstop : f.extStop = false) (htime : f.now ≤ cfg.maxUtteranceMs) :
    tick cfg ⟨true, spk, sil, false, ch, pd⟩ f =
      .cont (if cfg.startFrames ≤ (if cfg.rmsThreshold < f.energy then spk + 1 else 0)
        then ⟨true, (if cfg.rmsThreshold < f.energy then spk + 1 else 0), 0, true, ch, pd⟩
        else ⟨true, (if cfg.rmsThreshold < f.energy then spk + 1 else 0), sil, false, ch, pd⟩) := by
  unfold tick
  rw [hstop]
  simp only [Bool.false_eq_true, if_false]
  rw [show deliverAudio ⟨true, spk, sil, false, ch, pd⟩ f = ⟨true, spk, sil, false, ch, pd⟩ from by
    simp [deliverAudio]]
  simp only [Bool.true_eq_false, if_false]
  rw [if_neg (not_lt.mpr htime)]
  simp

/-- A recording state keeps its control fields through audio delivery. -/
theorem deliverAudio_rec_shape (spk sil : Nat) (ch : List Nat) (pd : Nat) (f : Frame) :
    ∃ chD pD, deliverAudio ⟨true, spk, sil, true, ch, pd⟩ f = ⟨true, spk, sil, true, chD, pD⟩ := by
  unfold deliverAudio
  rw [if_pos rfl]
  dsimp only
  split
  · exact ⟨_, _, rfl⟩
  · exact ⟨_, _, rfl⟩

/-- A tick in the recording state continues (no finalize) when the
silence debounce stays below `endFrames` and the time limit is not
exceeded. -/
theorem tick_recording_cont (cfg : RecCfg) (spk sil : Nat) (ch chD : List Nat)
    (pd pD : Nat) (f : Frame)
    (hstop : f.extStop = false) (htime : f.now ≤ cfg.maxUtteranceMs)
    (hdel : deliverAudio ⟨true, spk, sil, true, ch, pd⟩ f = ⟨true, spk, sil, true, chD, pD⟩)
    (hsil : (if f.energy ≤ cfg.rmsThreshold then sil + 1 else 0) < cfg.endFrames) :
    tick cfg ⟨true, spk, sil, true, ch, pd⟩ f =
      .cont ⟨true, spk, (if f.energy ≤ cfg.rmsThreshold then sil + 1 else 0), true, chD, pD⟩ := by
  unfold tick
  rw [hstop]
  simp only [Bool.false_eq_true, if_false, hdel]
  simp only [Bool.true_eq_false, if_false]
  rw [if_neg (not_le.mpr hsil), if_neg (not_lt.mpr htime)]

/-- Processing the frames of a speech onset: `startFrames` consecutive
above-threshold ticks below the time limit debounce the counter up and
transition to recording with a cleared silence counter. -/
theorem runTicks_speech_ramp (cfg : RecCfg) :
    ∀ (u : List Frame) (spk sil : Nat) (ch : List Nat) (pd : Nat),
      spk + u.length = cfg.startFrames →
      0 < u.length →
      (∀ f ∈ u, cfg.rmsThreshold < f.energy) →
      (∀ f ∈ u, f.now ≤ cfg.maxUtteranceMs) →
      (∀ f ∈ u, f.extStop = false) →
      ∀ rest, runTicks cfg ⟨true, spk, sil, false, ch, pd⟩ (u ++ rest) =
        runTicks cfg ⟨true, cfg.startFrames, 0, true, ch, pd⟩ rest := by
  intro u
  induction u with
  | nil =>
    intro spk sil ch pd _ h0 _ _ _ _
    exact absurd h0 (by simp)
  | cons f u' ih =>
    intro spk sil ch pd hlen h0 hsp htime hstop rest
    have hf : cfg.rmsThreshold < f.energy := hsp f (by simp)
    have htickbase := tick_idle_eq cfg spk sil ch pd f (hstop f (by simp)) (htime f (by simp))
    rw [if_pos hf] at htickbase
    rcases u' with _ | ⟨g, u''⟩
    · have heq : spk + 1 = cfg.startFrames := by
        simpa using hlen
      rw [if_pos (le_of_eq heq.symm)] at htickbase
      simp only [List.cons_append, List.nil_append, runTicks, htickbase]
      rw [heq]
      simp
    · have hnot : ¬ cfg.startFrames ≤ spk + 1 := by
        simp only [List.length_cons] at hlen
        omega
      rw [if_neg hnot] at htickbase
      simp only [List.cons_append, runTicks, htickbase]
      exact ih (spk + 1) sil ch pd
        (by simp only [List.length_cons] at hlen ⊢; omega) (by simp)
        (fun x hx => hsp x (List.mem_cons_of_mem _ hx))
        (fun x hx => htime x (List.mem_cons_of_mem _ hx))
        (fun x hx => hstop x (List.mem_cons_of_mem _ hx)) rest

/-- While the silence debounce never reaches `endFrames` and the time
limit is not exceeded, a recording capture stays recording and the
promise stays pending. -/
theorem runTicks_recording_persist (cfg : RecCfg) (h0 : 0 < cfg.endFrames) :
    ∀ (v : List Frame) (spk sil : Nat) (ch : List Nat) (pd : Nat),
      (∀ f ∈ v, f.now ≤ cfg.maxUtteranceMs) →
      (∀ f ∈ v, f.extStop = false) →
      runOK (fun e => decide (e ≤ cfg.rmsThreshold)) cfg.endFrames sil
        (v.map Frame.energy) = true →
      ∃ s', runTicks cfg ⟨true, spk, sil, true, ch, pd⟩ v = .pending s' ∧
        s'.recording = true := by
  intro v
  induction v with
  | nil =>
    intro spk sil ch pd _ _ _
    exact ⟨⟨true, spk, sil, true, ch, pd⟩, rfl, rfl⟩
  | cons f fs ih =>
    intro spk sil ch pd htime hstop hok
    obtain ⟨chD, pD, hdel⟩ := deliverAudio_rec_shape spk sil ch pd f
    simp only [List.map_cons] at hok
    unfold runOK at hok
    by_cases hp : f.energy ≤ cfg.rmsThreshold
    · rw [if_pos (decide_eq_true hp), Bool.and_eq_true] at hok
      obtain ⟨h1, h2⟩ := hok
      have hlt : sil + 1 < cfg.endFrames := of_decide_eq_true h1
      have htick := tick_recording_cont cfg spk sil ch chD pd pD f
        (hstop f (by simp)) (htime f (by simp)) hdel (by rw [if_pos hp]; exact hlt)
      rw [if_pos hp] at htick
      obtain ⟨s', hrun, hrec⟩ := ih spk (sil + 1) chD pD
        (fun g hg => htime g (List.mem_cons_of_mem _ hg))
        (fun g hg => hstop g (List.mem_cons_of_mem _ hg)) h2
      refine ⟨s', ?_, hrec⟩
      simp only [runTicks, htick]
      exact hrun
    · rw [if_neg (by simpa using hp)] at hok
      have htick := tick_recording_cont cfg spk sil ch chD pd pD f
        (hstop f (by simp)) (htime f (by simp)) hdel (by rw [if_neg hp]; exact h0)
      rw [if_neg hp] at htick
      obtain ⟨s', hrun, hrec⟩ := ih spk 0 chD pD
        (fun g hg => htime g (List.mem_cons_of_mem _ hg))
        (fun g hg => hstop g (List.mem_cons_of_mem _ hg)) hok
      refine ⟨s', ?_, hrec⟩
      simp only [runTicks, htick]
      exact hrun

/-- Claim C4: for every energy sequence consisting of `startFrames`
consecutive readings strictly above `rmsThreshold` followed by readings
in which no contiguous run of at-or-below-threshold values reaches
`endFrames`, and whose ticks all fall within `maxUtteranceMs`, the
recorder enters and remains in the Recording state and does not finalize
(no premature stop: the promise is still pending after the whole
sequence). -/
theorem C4_recording_no_premature_stop (cfg : RecCfg) (u v : List Frame)
    (h0 : 0 < cfg.startFrames)
    (hlen : u.length = cfg.startFrames)
    (hspeech : ∀ f ∈ u, cfg.rmsThreshold < f.energy)
    (htime : ∀ f ∈ u ++ v, f.now ≤ cfg.maxUtteranceMs)
    (hstop : ∀ f ∈ u ++ v, f.extStop = false)
    (hsilence : ∀ w, w <:+: v.map Frame.energy →
        (∀ e ∈ w, e ≤ cfg.rmsThreshold) → w.length < cfg.endFrames) :
    ∃ s', runTicks cfg initSTT (u ++ v) = .pending s' ∧ s'.recording = true := by
  have hend0 : 0 < cfg.endFrames := hsilence [] List.nil_infix (by simp)
  have hinit : initSTT = ⟨true, 0, 0, false, [], 0⟩ := rfl
  rw [hinit]
  rw [runTicks_speech_ramp cfg u 0 0 [] 0 (by simpa using hlen) (by omega)
    hspeech (fun f hf => htime f (List.mem_append_left _ hf))
    (fun f hf => hstop f (List.mem_append_left _ hf)) v]
  have hok : runOK (fun e => decide (e ≤ cfg.rmsThreshold)) cfg.endFrames 0
      (v.map Frame.energy) = true := by
    have hbridge := runOK_of_no_long_run (fun e => decide (e ≤ cfg.rmsThreshold))
      cfg.endFrames (v.map Frame.energy) [] ?_
    · exact hbridge
    · intro w hw hall
      rw [List.nil_append] at hw
      exact hsilence w hw (fun e he => of_decide_eq_true (hall e he))
  exact runTicks_recording_persist cfg hend0 v cfg.startFrames 0 [] 0
    (fun f hf => htime f (List.mem_append_right _ hf))
    (fun f hf => hstop f (List.mem_append_right _ hf)) hok

/-- Witness for C4: four frames of energy 1 above threshold 0, within the
time limit, leave the recorder in the Recording state with a pending
promise. -/
theorem C4_recording_no_premature_stop_witness :
    ∃ s', runTicks ⟨0, 4, 60, 60000⟩ initSTT
        ([⟨1, 50, 0, false, false⟩, ⟨1, 100, 0, false, false⟩,
          ⟨1, 150, 0, false, false⟩, ⟨1, 200, 0, false, false⟩] ++ []) =
      .pending s' ∧ s'.recording = true :=
  C4_recording_no_premature_stop ⟨0, 4, 60, 60000⟩
    [⟨1, 50, 0, false, false⟩, ⟨1, 100, 0, false, false⟩,
      ⟨1, 150, 0, false, false⟩, ⟨1, 200, 0, false, false⟩] []
    (by decide) (by decide) (by decide) (by decide) (by decide)
    (by
      intro w hw _
      have hwnil : w = [] := by simpa using hw
      subst hwnil
      decide)

/-! ## C6: no-speech captures resolve empty only after the time limit -/

/-- While the speech debounce never reaches `startFrames` and the time
limit is not exceeded, an idle capture stays idle (nothing is buffered,
nothing resolves). -/
theorem runTicks_idle_persist (cfg : RecCfg) (h0 : 0 < cfg.startFrames) :
    ∀ (a : List Frame) (spk sil : Nat) (ch : List Nat) (pd : Nat),
      (∀ f ∈ a, f.now ≤ cfg.maxUtteranceMs) →
      (∀ f ∈ a, f.extStop = false) →
      runOK (fun e => decide (cfg.rmsThreshold < e)) cfg.startFrames spk
        (a.map Frame.energy) = true →
      ∃ spk', ∀ rest, runTicks cfg ⟨true, spk, sil, false, ch, pd⟩ (a ++ rest) =
        runTicks cfg ⟨true, spk', sil, false, ch, pd⟩ rest := by
  intro a
  induction a with
  | nil =>
    intro spk sil ch pd _ _ _
    exact ⟨spk, fun rest => by simp⟩
  | cons f fs ih =>
    intro spk sil ch pd htime hstop hok
    simp only [List.map_cons] at hok
    unfold runOK at hok
    have htickbase := tick_idle_eq cfg spk sil ch pd f (hstop f (by simp)) (htime f (by simp))
    by_cases hp : cfg.rmsThreshold < f.energy
    · rw [if_pos (decide_eq_true hp), Bool.and_eq_true] at hok
      obtain ⟨h1, h2⟩ := hok
      have hlt : spk + 1 < cfg.startFrames := of_decide_eq_true h1
      rw [if_pos hp, if_neg (by omega)] at htickbase
      obtain ⟨spk', hrun⟩ := ih (spk + 1) sil ch pd
        (fun g hg => htime g (List.mem_cons_of_mem _ hg))
        (fun g hg => hstop g (List.mem_cons_of_mem _ hg)) h2
      refine ⟨spk', fun rest => ?_⟩
      simp only [List.cons_append, runTicks, htickbase]
      exact hrun rest
    · rw [if_neg (by simpa using hp)] at hok
      rw [if_neg hp, if_neg (by omega)] at htickbase
      obtain ⟨spk', hrun⟩ := ih 0 sil ch pd
        (fun g hg => htime g (List.mem_cons_of_mem _ hg))
        (fun g hg => hstop g (List.mem_cons_of_mem _ hg)) hok
      refine ⟨spk', fun rest => ?_⟩
      simp only [List.cons_append, runTicks, htickbase]
      exact hrun rest

/-- Settling the promise from a state with no buffered chunks and no
pending bytes yields the `null` blob. -/
theorem flush_empty_resolve (X : STTState) (hc : X.chunks = []) (hp : X.pending = 0) :
    TickResult.resolvedNow (finalizeBlob (requestDataFlush X)) (requestDataFlush X) =
      .resolvedNow none X := by
  have h1 : requestDataFlush X = X := by
    unfold requestDataFlush
    rw [if_neg (by simp [hp])]
  rw [h1]
  have h2 : finalizeBlob X = none := by
    simp [finalizeBlob, hc]
  rw [h2]

/-- A tick in the idle state with nothing buffered, past the time limit,
settles the promise with `null` (the `requestData()`/`stop()` pair throws
on the never-started recorder and is swallowed; the chunk list is empty). -/
theorem tick_timeout_idle (cfg : RecCfg) (spk sil : Nat) (f : Frame)
    (hstop : f.extStop = false) (htime : cfg.maxUtteranceMs < f.now) :
    ∃ s', tick cfg ⟨true, spk, sil, false, [], 0⟩ f = .resolvedNow none s' := by
  unfold tick
  rw [hstop]
  simp only [Bool.false_eq_true, if_false]
  rw [show deliverAudio ⟨true, spk, sil, false, ([] : List Nat), 0⟩ f =
      ⟨true, spk, sil, false, [], 0⟩ from by simp [deliverAudio]]
  simp only [Bool.true_eq_false, if_false]
  simp only [eq_self_iff_true, if_true]
  rw [if_pos htime]
  exact ⟨_, flush_empty_resolve _ (by split <;> split <;> rfl) (by split <;> split <;> rfl)⟩

/-- Counterexample to claim C6 as stated: with no speech at all and
`maxUtteranceMs = 100`, the capture is still pending at the tick at 60 ms
(within the limit) and resolves empty only at the tick at 120 ms — after
`maxUtteranceMs` has elapsed, not before (the loop's only no-speech exit
is the strict `elapsed > maxUtteranceMs` check). -/
theorem C6_counterexample :
    runTicks ⟨0, 4, 60, 100⟩ initSTT [⟨0, 60, 0, false, false⟩] = .pending initSTT ∧
      runTicks ⟨0, 4, 60, 100⟩ initSTT
          [⟨0, 60, 0, false, false⟩, ⟨0, 120, 0, false, false⟩] =
        .resolved none initSTT 120 ∧
      ¬ (120 : ℚ) ≤ 100 :=
  ⟨by decide, by decide, by decide⟩

/-- Claim C6 (amended): for every energy sequence containing no run of
`startFrames` consecutive readings above `rmsThreshold`,
`recordOneUtterance` resolves to an empty result — but only at the first
poll tick whose elapsed time exceeds `maxUtteranceMs`, not before
`maxUtteranceMs` has elapsed. -/
theorem C6_no_speech_times_out (cfg : RecCfg) (a : List Frame) (f : Frame) (b : List Frame)
    (hnorun : ∀ w, w <:+: a.map Frame.energy →
        (∀ e ∈ w, cfg.rmsThreshold < e) → w.length < cfg.startFrames)
    (htime : ∀ g ∈ a, g.now ≤ cfg.maxUtteranceMs)
    (hstop : ∀ g ∈ a, g.extStop = false)
    (hfstop : f.extStop = false)
    (hf : cfg.maxUtteranceMs < f.now) :
    ∃ s', runTicks cfg initSTT (a ++ f :: b) = .resolved none s' f.now := by
  have h0 : 0 < cfg.startFrames := hnorun [] List.nil_infix (by simp)
  have hok : runOK (fun e => decide (cfg.rmsThreshold < e)) cfg.startFrames 0
      (a.map Frame.energy) = true := by
    have hbridge := runOK_of_no_long_run (fun e => decide (cfg.rmsThreshold < e))
      cfg.startFrames (a.map Frame.energy) [] ?_
    · exact hbridge
    · intro w hw hall
      rw [List.nil_append] at hw
      exact hnorun w hw (fun e he => of_decide_eq_true (hall e he))
  have hinit : initSTT = ⟨true, 0, 0, false, [], 0⟩ := rfl
  rw [hinit]
  obtain ⟨spk', hramp⟩ := runTicks_idle_persist cfg h0 a 0 0 [] 0 htime hstop hok
  rw [hramp (f :: b)]
  obtain ⟨s', htick⟩ := tick_timeout_idle cfg spk' 0 f hfstop hf
  refine ⟨s', ?_⟩
  simp only [runTicks, htick]

/-- Witness for the amended C6: a single over-time tick with no speech
resolves empty at that tick. -/
theorem C6_no_speech_times_out_witness :
    ∃ s', runTicks ⟨0, 4, 60, 60000⟩ initSTT
        ([] ++ ⟨0, 60001, 0, false, false⟩ :: []) = .resolved none s' 60001 :=
  C6_no_speech_times_out ⟨0, 4, 60, 60000⟩ [] ⟨0, 60001, 0, false, false⟩ []
    (by
      intro w hw _
      have hwnil : w = [] := by simpa using hw
      subst hwnil
      decide)
    (by simp) (by simp) rfl (by decide)

/-! ## C1: staleness guard of the record-answer flow -/

/-- Once the flow is done, no further interleaving changes the chat
transcript. -/
theorem flowRun_done (s : FlowState) (hdone : s.phase = .done) (acts : List FlowAct) :
    (flowRun s acts).messages = s.messages ∧ (flowRun s acts).phase = .done := by
  induction acts generalizing s with
  | nil => exact ⟨rfl, hdone⟩
  | cons a acts ih =>
    cases a with
    | adv =>
      have h2 := ih { s with counter := s.counter + 1 } hdone
      simpa [flowRun, flowStep] using h2
    | step =>
      have hstep : flowStep s .step = s := by
        simp [flowStep, hdone]
      simp only [flowRun, List.foldl_cons] at *
      rw [hstep]
      exact ih s hdone

/-- Counterexample to claim C1 as stated: the flow checks the sequence
counter at entry and once more before issuing the review request, but the
code after `await API.reviewChain` appends the transcript and reply
without re-checking.  If `grade`/`handleStart` advances the counter while
the review request is in flight (the `adv` between the fourth and the
fifth step), the result is applied — two messages are appended — even
though the counter (1) exceeds the captured sequence value (0) at
apply time. -/
theorem C1_counterexample :
    ((flowRun ⟨0, 0, [], FlowPhase.checkEntry, true,
          some ⟨true, "hello", some "Gut!", none⟩⟩
        [FlowAct.step, FlowAct.step, FlowAct.step, FlowAct.adv, FlowAct.step]).phase =
        FlowPhase.applyResult ∧
      (flowRun ⟨0, 0, [], FlowPhase.checkEntry, true,
          some ⟨true, "hello", some "Gut!", none⟩⟩
        [FlowAct.step, FlowAct.step, FlowAct.step, FlowAct.adv, FlowAct.step]).seqAtStart <
        (flowRun ⟨0, 0, [], FlowPhase.checkEntry, true,
          some ⟨true, "hello", some "Gut!", none⟩⟩
        [FlowAct.step, FlowAct.step, FlowAct.step, FlowAct.adv, FlowAct.step]).counter) ∧
    (flowRun ⟨0, 0, [], FlowPhase.checkEntry, true,
        some ⟨true, "hello", some "Gut!", none⟩⟩
      [FlowAct.step, FlowAct.step, FlowAct.step, FlowAct.adv, FlowAct.step,
        FlowAct.step]).messages =
      [⟨Role.user, "hello"⟩, ⟨Role.assistant, "Gut!"⟩] := by
  refine ⟨⟨by decide, by decide⟩, by decide⟩

/-- Claim C1 (amended): if the counter has been raised past the captured
sequence value by the time the flow reaches either of its two staleness
checks (at entry, and after capture before issuing the review request),
the flow abandons all remaining effects: no transcript or reply message
is ever appended, under every further interleaving, and nothing is
thrown.  (Advancement that happens only during the final review-request
await is not detected; see the counterexample.) -/
theorem C1_stale_checks_abort (s : FlowState)
    (hphase : s.phase = .checkEntry ∨ s.phase = .checkBeforeSend)
    (hstale : s.seqAtStart ≠ s.counter) (acts : List FlowAct) :
    (flowRun s (FlowAct.step :: acts)).messages = s.messages := by
  have hstep : flowStep s .step = { s with phase := .done } := by
    rcases hphase with h | h <;> simp [flowStep, h, hstale]
  simp only [flowRun, List.foldl_cons]
  rw [hstep]
  exact (flowRun_done { s with phase := .done } rfl acts).1

/-- Witness for the amended C1: a flow at the pre-send check with a stale
counter appends nothing even when the environment keeps advancing. -/
theorem C1_stale_checks_abort_witness :
    (flowRun ⟨1, 0, [], FlowPhase.checkBeforeSend, true, some ⟨true, "hi", none, none⟩⟩
        (FlowAct.step :: [FlowAct.adv, FlowAct.step])).messages =
      (⟨1, 0, [], FlowPhase.checkBeforeSend, true,
        some ⟨true, "hi", none, none⟩⟩ : FlowState).messages :=
  C1_stale_checks_abort
    ⟨1, 0, [], FlowPhase.checkBeforeSend, true, some ⟨true, "hi", none, none⟩⟩
    (Or.inr rfl) (by decide) [FlowAct.adv, FlowAct.step]
